import Mathlib

/-!
Shallow embedding of `src/malloc-and-free.c` (microLunaOS bare-metal heap
allocator) and verification of its specification.

The C program keeps a 64 KiB static arena (`heap_area`), a chain of
`block_header` records embedded in the arena (fields `size`, `next`, `free`),
a global head pointer `free_list`, and three operations: `init_heap`,
`malloc`, `free`.

Embedding conventions:
* A heap state is the chain of headers in `next`-pointer order, as a
  `List block_header`.  The `next` field is the list structure itself; a
  `NULL` head (`free_list == NULL`, i.e. the uninitialized heap) is the
  empty list, since the traversals `while (current) ...` see exactly the
  empty chain in that case.
* `addr` is the byte offset of a header from the start of `heap_area`;
  pointer values handed to callers are offsets as well, so the C `NULL`
  is the offset `0` (a real payload pointer is always `≥ HEADER_SIZE`).
* `size_t` is 32 bits (the source is written for a 32-bit ARM target);
  arithmetic on `size` values is carried out modulo `WORD = 2^32` exactly
  where the C expressions can wrap: the alignment `(size + 7) & ~7`, the
  split guard `size + HEADER_SIZE + 8`, the split remainder
  `current->size - size - HEADER_SIZE`, and the coalescing accumulation
  `current->size += HEADER_SIZE + current->next->size`.
* Mutation of the global chain becomes explicit state passing:
  `malloc` returns the new chain together with the returned pointer
  (`Option Nat`, `none` being the C `NULL` return).
-/

namespace MicroLuna

/-- Width of `size_t` on the 32-bit ARM target: `2^32`. -/
def WORD : Nat := 4294967296

/-- The C macro `HEAP_SIZE = 64 * 1024`. -/
def HEAP_SIZE : Nat := 65536

/-- The C macro `HEADER_SIZE = sizeof(block_header_t)`; on a 32-bit ARM
target the struct is `size_t` (4) + pointer (4) + `int` (4) = 12 bytes. -/
def HEADER_SIZE : Nat := 12

/-- One `block_header_t` of the source, with its position in the arena made
explicit: `addr` is the header's byte offset inside `heap_area`, `size` and
`free` are the struct fields.  The `next` field is represented by list
order in the chain. -/
structure block_header where
  addr : Nat
  size : Nat
  free : Bool
deriving DecidableEq

/-- 32-bit unsigned (`size_t`) addition: `(a + b) mod 2^32`. -/
def wadd (a b : Nat) : Nat := (a + b) % WORD

/-- 32-bit unsigned (`size_t`) subtraction: wraps around like C unsigned
arithmetic on values below `2^32`. -/
def wsub (a b : Nat) : Nat := (a % WORD + WORD - b % WORD) % WORD

/-- The alignment step of `malloc`: `size = (size + 7) & ~7;` computed in
32-bit `size_t` arithmetic (`~7` is the 32-bit mask `0xFFFFFFF8`). -/
def align8 (n : Nat) : Nat := ((n + 7) % WORD) &&& 4294967288

/-- The C `init_heap`: one free block at offset 0 spanning the whole arena,
`size = HEAP_SIZE - HEADER_SIZE`, `next = NULL`, `free = 1`. -/
def init_heap : List block_header :=
  [{ addr := 0, size := HEAP_SIZE - HEADER_SIZE, free := true }]

/-- The traversal loop of the C `malloc`, after the requested size has been
aligned: walk the chain; at the first block with `current->free &&
current->size >= size`, split it when `current->size >= size + HEADER_SIZE + 8`
(the new header is placed at `current + HEADER_SIZE + size` with the leftover
size), mark it allocated, and return `current + HEADER_SIZE`; otherwise keep
walking; a `NULL` current means failure (`NULL` return, chain untouched). -/
def mallocGo (size : Nat) : List block_header → List block_header × Option Nat
  | [] => ([], none)
  | current :: rest =>
    if current.free = true ∧ size ≤ current.size then
      if (size + HEADER_SIZE + 8) % WORD ≤ current.size then
        ({ current with size := size, free := false } ::
           { addr := current.addr + HEADER_SIZE + size
             size := wsub (wsub current.size size) HEADER_SIZE
             free := true } :: rest,
         some (current.addr + HEADER_SIZE))
      else
        ({ current with free := false } :: rest,
         some (current.addr + HEADER_SIZE))
    else
      ((mallocGo size rest).1.cons current, (mallocGo size rest).2)

/-- The C `malloc`: align the requested size to 8 bytes, then run the
first-fit traversal.  Returns the new chain and the returned pointer
(`none` = `NULL`). -/
def malloc (l : List block_header) (n : Nat) : List block_header × Option Nat :=
  mallocGo (align8 n) l

/-- The store `block->free = 1` of the C `free`, where
`block = (char *)ptr - HEADER_SIZE`: its effect on the chain is to set the
`free` flag of the header that sits at offset `a`; a store outside every
chain header does not change any chain metadata. -/
def markFree (l : List block_header) (a : Nat) : List block_header :=
  l.map fun b => if b.addr = a then { b with free := true } else b

/-- The coalescing loop of the C `free`: walk from the head; whenever the
current block and its successor are both free, merge
(`current->size += HEADER_SIZE + current->next->size;
current->next = current->next->next;`) and re-check the same node,
otherwise advance. -/
def coalesce : List block_header → List block_header
  | [] => []
  | [a] => [a]
  | a :: b :: rest =>
    if a.free = true ∧ b.free = true then
      coalesce ({ a with size := wadd a.size (wadd HEADER_SIZE b.size) } :: rest)
    else
      (coalesce (b :: rest)).cons a
termination_by l => l.length

/-- The C `free`: `NULL` is a no-op; otherwise mark the header at
`ptr - HEADER_SIZE` free and run the full coalescing pass. -/
def free (l : List block_header) (ptr : Nat) : List block_header :=
  if ptr = 0 then l
  else coalesce (markFree l (ptr - HEADER_SIZE))

/-- Total arena bytes accounted for by the chain:
`Σ (HEADER_SIZE + block.size)` over all chain nodes. -/
def sumCover (l : List block_header) : Nat :=
  l.foldr (fun b acc => HEADER_SIZE + b.size + acc) 0

/-- Physical contiguity of two chain neighbours: the successor's header
starts exactly where the predecessor's block (header plus payload) ends. -/
def contig (a b : block_header) : Prop :=
  b.addr = a.addr + HEADER_SIZE + a.size

/-- No two adjacent chain entries are both free (spec invariant 5). -/
def noAdjFree (l : List block_header) : Prop :=
  l.Chain' fun a b => ¬(a.free = true ∧ b.free = true)

/-- Heap states reachable from `init_heap` by `malloc` and `free` calls. -/
inductive Reachable : List block_header → Prop
  | init : Reachable init_heap
  | alloc (s : List block_header) (n : Nat) :
      Reachable s → Reachable (malloc s n).1
  | release (s : List block_header) (p : Nat) :
      Reachable s → Reachable (free s p)

/-- Step-indexed version of the `malloc` traversal: one unit of fuel per
iteration of `while (current)`; `none` means the fuel ran out before the
loop finished. -/
def mallocFuel (size : Nat) : Nat → List block_header →
    Option (List block_header × Option Nat)
  | _, [] => some ([], none)
  | 0, _ :: _ => none
  | fuel + 1, current :: rest =>
    if current.free = true ∧ size ≤ current.size then
      if (size + HEADER_SIZE + 8) % WORD ≤ current.size then
        some ({ current with size := size, free := false } ::
                { addr := current.addr + HEADER_SIZE + size
                  size := wsub (wsub current.size size) HEADER_SIZE
                  free := true } :: rest,
              some (current.addr + HEADER_SIZE))
      else
        some ({ current with free := false } :: rest,
              some (current.addr + HEADER_SIZE))
    else
      match mallocFuel size fuel rest with
      | none => none
      | some (l, r) => some (l.cons current, r)

/-- Step-indexed version of the coalescing loop of `free`: one unit of fuel
per iteration of `while (current)`; every iteration either merges (the chain
shrinks, `current` stays) or advances, so the suffix starting at `current`
is the loop measure. -/
def coalesceFuel : Nat → List block_header → Option (List block_header)
  | _, [] => some []
  | 0, _ :: _ => none
  | _ + 1, [a] => some [a]
  | fuel + 1, a :: b :: rest =>
    if a.free = true ∧ b.free = true then
      coalesceFuel fuel ({ a with size := wadd a.size (wadd HEADER_SIZE b.size) } :: rest)
    else
      match coalesceFuel fuel (b :: rest) with
      | none => none
      | some l => some (l.cons a)

/-! ### Arithmetic helper lemmas -/

/-- Masking with the 32-bit `~7` (`0xFFFFFFF8`) clears the low three bits:
for a 32-bit value it rounds down to a multiple of 8. -/
theorem land_mask (m : Nat) (hm : m < 2 ^ 32) :
    m &&& 4294967288 = m - m % 8 := by
  have h1 : (4294967288 : Nat) = (2 ^ 29 - 1) <<< 3 := by
    rw [Nat.shiftLeft_eq]; norm_num
  have h2 : m - m % 8 = (m >>> 3) <<< 3 := by
    rw [Nat.shiftRight_eq_div_pow, Nat.shiftLeft_eq]
    omega
  apply Nat.eq_of_testBit_eq
  intro i
  rw [h2, h1, Nat.testBit_and, Nat.testBit_shiftLeft, Nat.testBit_shiftLeft,
    Nat.testBit_shiftRight, Nat.testBit_two_pow_sub_one]
  by_cases h3 : 3 ≤ i
  · have h33 : 3 + (i - 3) = i := by omega
    by_cases h32 : i < 32
    · have h29 : i - 3 < 29 := by omega
      simp [h3, h29, h33]
    · have hbit : m.testBit i = false :=
        Nat.testBit_lt_two_pow (lt_of_lt_of_le hm (Nat.pow_le_pow_right (by norm_num) (by omega)))
      have h29 : ¬ i - 3 < 29 := by omega
      simp [h3, h29, h33, hbit]
  · simp [h3]

/-- Characterization of the aligned size: with `m = (n + 7) % 2^32`, the
source's `(n + 7) & ~7` equals `m - m % 8`. -/
theorem align8_eq (n : Nat) :
    align8 n = (n + 7) % WORD - ((n + 7) % WORD) % 8 := by
  unfold align8
  exact land_mask _ (Nat.mod_lt _ (by unfold WORD; norm_num))

/-- When the addition `n + 7` does not wrap (i.e. `n ≤ 2^32 - 8`), the
aligned size is at least the requested size. -/
theorem align8_ge (n : Nat) (h : n + 8 ≤ WORD) : n ≤ align8 n := by
  rw [align8_eq]
  have hlt : n + 7 < WORD := by omega
  rw [Nat.mod_eq_of_lt hlt]
  have : (n + 7) % 8 ≤ 7 := Nat.le_of_lt_succ (Nat.mod_lt _ (by norm_num))
  omega

/-- The aligned size never exceeds `n + 7` (and in particular stays below
`2^32`). -/
theorem align8_le (n : Nat) : align8 n ≤ (n + 7) % WORD := by
  rw [align8_eq]; omega

theorem align8_lt_word (n : Nat) : align8 n < WORD :=
  lt_of_le_of_lt (align8_le n) (Nat.mod_lt _ (by unfold WORD; norm_num))

/-- C unsigned subtraction agrees with exact subtraction when it does not
underflow and the minuend is a 32-bit value. -/
theorem wsub_exact (a b : Nat) (hb : b ≤ a) (ha : a < WORD) :
    wsub a b = a - b := by
  unfold wsub
  rw [Nat.mod_eq_of_lt ha, Nat.mod_eq_of_lt (lt_of_le_of_lt hb ha)]
  have h : a + WORD - b = WORD + (a - b) := by omega
  rw [h, Nat.add_mod_left, Nat.mod_eq_of_lt (by omega)]

/-- C unsigned addition agrees with exact addition when it does not wrap. -/
theorem wadd_exact (a b : Nat) (h : a + b < WORD) : wadd a b = a + b :=
  Nat.mod_eq_of_lt h

theorem sumCover_nil : sumCover [] = 0 := rfl

theorem sumCover_cons (b : block_header) (l : List block_header) :
    sumCover (b :: l) = HEADER_SIZE + b.size + sumCover l := rfl

/-- Every chain node's extent is bounded by the chain's total coverage. -/
theorem extent_le_sumCover {b : block_header} {l : List block_header}
    (hb : b ∈ l) : HEADER_SIZE + b.size ≤ sumCover l := by
  induction l with
  | nil => cases hb
  | cons c t ih =>
    rw [sumCover_cons]
    rcases List.mem_cons.mp hb with h | h
    · subst h; omega
    · have := ih h; omega

/-! ### First-fit traversal lemmas -/

/-- The traversal returns the payload pointer of the first chain node that
is free and large enough, and `none` when there is no such node. -/
theorem mallocGo_find (m : Nat) (l : List block_header) :
    (mallocGo m l).2 =
      (l.find? fun b => b.free && decide (m ≤ b.size)).map
        fun b => b.addr + HEADER_SIZE := by
  induction l with
  | nil => rfl
  | cons c t ih =>
    simp only [mallocGo]
    by_cases h : c.free = true ∧ m ≤ c.size
    · rw [if_pos h, List.find?_cons_of_pos _ (by simp [h.1, h.2])]
      split <;> rfl
    · rw [if_neg h, List.find?_cons_of_neg _ (by simpa using h)]
      simpa using ih

/-- If no chain node fits, the traversal returns the whole chain unchanged
together with the `NULL` result. -/
theorem mallocGo_nofit (m : Nat) (l : List block_header)
    (h : ∀ b ∈ l, ¬(b.free = true ∧ m ≤ b.size)) :
    mallocGo m l = (l, none) := by
  induction l with
  | nil => rfl
  | cons c t ih =>
    simp only [mallocGo]
    rw [if_neg (h c (List.mem_cons_self c t)),
      ih fun b hb => h b (List.mem_cons_of_mem c hb)]

/-- An allocated block is carried over unchanged by the traversal: `malloc`
only rewrites the chosen block (which is free) and possibly inserts one new
header carved out of it. -/
theorem mallocGo_preserves_allocated (m : Nat) (l : List block_header)
    (b : block_header) (hb : b ∈ l) (hfree : b.free = false) :
    b ∈ (mallocGo m l).1 := by
  induction l with
  | nil => cases hb
  | cons c t ih =>
    simp only [mallocGo]
    rcases List.mem_cons.mp hb with h1 | h1
    · subst h1
      rw [if_neg (by simp [hfree])]
      exact List.mem_cons_self _ _
    · by_cases h : c.free = true ∧ m ≤ c.size
      · rw [if_pos h]
        split
        · exact List.mem_cons_of_mem _ (List.mem_cons_of_mem _ h1)
        · exact List.mem_cons_of_mem _ h1
      · rw [if_neg h]
        exact List.mem_cons_of_mem _ (ih h1)

/-! ### Coalescing lemmas -/

/-- The first node of a nonempty chain survives the coalescing pass with its
address and its `free` flag intact (only its `size` can grow by absorbing
successors). -/
theorem coalesce_cons_head : ∀ (a : block_header) (l : List block_header),
    ∃ b t, coalesce (a :: l) = b :: t ∧ b.addr = a.addr ∧ b.free = a.free
  | a, [] => ⟨a, [], by simp [coalesce], rfl, rfl⟩
  | a, b :: rest => by
    simp only [coalesce]
    split
    · exact coalesce_cons_head
        { a with size := wadd a.size (wadd HEADER_SIZE b.size) } rest
    · exact ⟨a, coalesce (b :: rest), rfl, rfl, rfl⟩
termination_by _ l => l.length

/-- After the coalescing pass no two adjacent chain entries are both free:
the loop re-checks the same node after each merge, so it absorbs whole runs
of free blocks. -/
theorem noAdjFree_coalesce : ∀ l : List block_header, noAdjFree (coalesce l)
  | [] => by simp [coalesce, noAdjFree]
  | [a] => by simp [coalesce, noAdjFree]
  | a :: b :: rest => by
    simp only [coalesce]
    split
    · exact noAdjFree_coalesce
        ({ a with size := wadd a.size (wadd HEADER_SIZE b.size) } :: rest)
    · rename_i h
      obtain ⟨b', t', heq, _, hfree⟩ := coalesce_cons_head b rest
      have ih := noAdjFree_coalesce (b :: rest)
      rw [heq] at ih
      show List.Chain' _ (a :: coalesce (b :: rest))
      rw [heq]
      exact List.chain'_cons.mpr
        ⟨fun hc => h ⟨hc.1, by rw [← hfree]; exact hc.2⟩, ih⟩
termination_by l => l.length

/-- An allocated block survives the coalescing pass unchanged: a merge
requires both participants to be free. -/
theorem coalesce_preserves_allocated : ∀ (l : List block_header)
    (b : block_header), b ∈ l → b.free = false → b ∈ coalesce l
  | [], b, hb, _ => absurd hb (List.not_mem_nil b)
  | [_], b, hb, _ => by simpa [coalesce] using hb
  | a :: c :: rest, b, hb, h => by
    simp only [coalesce]
    split
    · rename_i hc
      have hbr : b ∈ rest := by
        rcases List.mem_cons.mp hb with h1 | h1
        · subst h1; rw [h] at hc; simp at hc
        · rcases List.mem_cons.mp h1 with h2 | h2
          · subst h2; rw [h] at hc; simp at hc
          · exact h2
      exact coalesce_preserves_allocated
        ({ a with size := wadd a.size (wadd HEADER_SIZE c.size) } :: rest) b
        (List.mem_cons_of_mem _ hbr) h
    · rcases List.mem_cons.mp hb with h1 | h1
      · subst h1; exact List.mem_cons_self _ _
      · exact List.mem_cons_of_mem _
          (coalesce_preserves_allocated (c :: rest) b h1 h)
termination_by l => l.length

/-- A block whose header is not at the stored-to address is untouched by the
`block->free = 1` store. -/
theorem markFree_preserves (l : List block_header) (a : Nat)
    (b : block_header) (hb : b ∈ l) (hne : b.addr ≠ a) :
    b ∈ markFree l a := by
  have hfb : (fun x => if x.addr = a then { x with free := true } else x) b = b :=
    if_neg hne
  rw [markFree, ← hfb]
  exact List.mem_map_of_mem _ hb

/-! ### Conservation and contiguity preservation -/

/-- The traversal leaves the total arena coverage unchanged: a split divides
`HEADER_SIZE + size` into `(HEADER_SIZE + roundedSize) + (HEADER_SIZE +
(size - roundedSize - HEADER_SIZE))` and marking a block allocated changes
no size. -/
theorem mallocGo_sumCover (m : Nat) (l : List block_header)
    (h : sumCover l ≤ HEAP_SIZE) :
    sumCover (mallocGo m l).1 = sumCover l := by
  have hW : WORD = 4294967296 := rfl
  have hH : HEADER_SIZE = 12 := rfl
  have hHS : HEAP_SIZE = 65536 := rfl
  induction l with
  | nil => rfl
  | cons c t ih =>
    have hcons : sumCover (c :: t) = HEADER_SIZE + c.size + sumCover t := rfl
    simp only [mallocGo]
    by_cases hfit : c.free = true ∧ m ≤ c.size
    · rw [if_pos hfit]
      have hm := hfit.2
      have hg : (m + HEADER_SIZE + 8) % WORD = m + HEADER_SIZE + 8 :=
        Nat.mod_eq_of_lt (by omega)
      rw [hg]
      by_cases hguard : m + HEADER_SIZE + 8 ≤ c.size
      · rw [if_pos hguard]
        have h1 : wsub c.size m = c.size - m := wsub_exact _ _ hm (by omega)
        have h2 : wsub (c.size - m) HEADER_SIZE = c.size - m - HEADER_SIZE :=
          wsub_exact _ _ (by omega) (by omega)
        simp only [sumCover_cons, h1, h2]
        omega
      · rw [if_neg hguard]
        simp only [sumCover_cons]
    · rw [if_neg hfit]
      have ht : sumCover t ≤ HEAP_SIZE := by omega
      show HEADER_SIZE + c.size + sumCover (mallocGo m t).1 = _
      rw [ih ht, hcons]

/-- The traversal never changes the address of the first chain node. -/
theorem mallocGo_head_addr (m : Nat) (l : List block_header) :
    (mallocGo m l).1.head?.map block_header.addr = l.head?.map block_header.addr := by
  cases l with
  | nil => rfl
  | cons c t =>
    simp only [mallocGo]
    by_cases hfit : c.free = true ∧ m ≤ c.size
    · rw [if_pos hfit]; split <;> rfl
    · rw [if_neg hfit]; rfl

/-- The traversal preserves physical contiguity of the chain: a split places
the new header exactly at the end of the shrunk block and the new block ends
exactly where the original block ended. -/
theorem mallocGo_chain (m : Nat) (l : List block_header)
    (hch : l.Chain' contig) (h : sumCover l ≤ HEAP_SIZE) :
    (mallocGo m l).1.Chain' contig := by
  have hW : WORD = 4294967296 := rfl
  have hH : HEADER_SIZE = 12 := rfl
  have hHS : HEAP_SIZE = 65536 := rfl
  induction l with
  | nil => exact List.chain'_nil
  | cons c t ih =>
    have hcons : sumCover (c :: t) = HEADER_SIZE + c.size + sumCover t := rfl
    obtain ⟨hhead, htail⟩ := List.chain'_cons'.mp hch
    simp only [mallocGo]
    by_cases hfit : c.free = true ∧ m ≤ c.size
    · rw [if_pos hfit]
      have hm := hfit.2
      have hg : (m + HEADER_SIZE + 8) % WORD = m + HEADER_SIZE + 8 :=
        Nat.mod_eq_of_lt (by omega)
      rw [hg]
      by_cases hguard : m + HEADER_SIZE + 8 ≤ c.size
      · rw [if_pos hguard]
        have h1 : wsub c.size m = c.size - m := wsub_exact _ _ hm (by omega)
        have h2 : wsub (c.size - m) HEADER_SIZE = c.size - m - HEADER_SIZE :=
          wsub_exact _ _ (by omega) (by omega)
        refine List.chain'_cons'.mpr ⟨?_, List.chain'_cons'.mpr ⟨?_, htail⟩⟩
        · intro y hy
          simp only [List.head?_cons, Option.mem_def, Option.some.injEq] at hy
          subst hy
          rfl
        · intro y hy
          have hold := hhead y hy
          unfold contig at hold ⊢
          simp only [h1, h2]
          omega
      · rw [if_neg hguard]
        exact List.chain'_cons'.mpr ⟨fun y hy => hhead y hy, htail⟩
    · rw [if_neg hfit]
      have ht : sumCover t ≤ HEAP_SIZE := by omega
      refine List.chain'_cons'.mpr ⟨?_, ih htail ht⟩
      intro y hy
      have hmap := mallocGo_head_addr m t
      cases h' : (mallocGo m t).1.head? with
      | none => rw [h'] at hy; cases hy
      | some w =>
        rw [h'] at hy hmap
        have hyw : w = y := by simpa using hy
        subst hyw
        cases ht' : t.head? with
        | none => rw [ht'] at hmap; cases hmap
        | some z =>
          rw [ht'] at hmap
          have hmap2 : w.addr = z.addr := by simpa using hmap
          have hz := hhead z (by rw [ht']; rfl)
          unfold contig at hz ⊢
          rw [hmap2, hz]

/-- The coalescing pass leaves the total arena coverage unchanged: a merge
turns `(HEADER_SIZE + a.size) + (HEADER_SIZE + b.size)` into
`HEADER_SIZE + (a.size + HEADER_SIZE + b.size)`. -/
theorem coalesce_sumCover : ∀ l : List block_header,
    sumCover l ≤ HEAP_SIZE → sumCover (coalesce l) = sumCover l
  | [] => by intro _; simp [coalesce]
  | [a] => by intro _; simp [coalesce]
  | a :: b :: rest => by
    intro h
    have hW : WORD = 4294967296 := rfl
    have hH : HEADER_SIZE = 12 := rfl
    have hHS : HEAP_SIZE = 65536 := rfl
    have hcons : sumCover (a :: b :: rest)
        = HEADER_SIZE + a.size + (HEADER_SIZE + b.size + sumCover rest) := rfl
    simp only [coalesce]
    split
    · have h1 : wadd HEADER_SIZE b.size = HEADER_SIZE + b.size :=
        wadd_exact _ _ (by omega)
      have h2 : wadd a.size (HEADER_SIZE + b.size) = a.size + (HEADER_SIZE + b.size) :=
        wadd_exact _ _ (by omega)
      have hsum : sumCover ({ a with size := wadd a.size (wadd HEADER_SIZE b.size) } :: rest)
          = sumCover (a :: b :: rest) := by
        simp only [sumCover_cons, h1, h2]
        omega
      rw [coalesce_sumCover _ (by rw [hsum]; exact h), hsum]
    · show sumCover (a :: coalesce (b :: rest)) = _
      have hb : sumCover (b :: rest) = HEADER_SIZE + b.size + sumCover rest := rfl
      have ht : sumCover (b :: rest) ≤ HEAP_SIZE := by omega
      rw [sumCover_cons, coalesce_sumCover _ ht]
      omega
termination_by l => l.length

/-- The coalescing pass preserves physical contiguity: a merged block ends
exactly where its absorbed successor ended. -/
theorem coalesce_chain : ∀ l : List block_header,
    l.Chain' contig → sumCover l ≤ HEAP_SIZE → (coalesce l).Chain' contig
  | [] => by intro _ _; simp [coalesce]
  | [a] => by intro _ _; simp [coalesce, List.chain'_singleton]
  | a :: b :: rest => by
    intro hch h
    have hW : WORD = 4294967296 := rfl
    have hH : HEADER_SIZE = 12 := rfl
    have hHS : HEAP_SIZE = 65536 := rfl
    have hcons : sumCover (a :: b :: rest)
        = HEADER_SIZE + a.size + (HEADER_SIZE + b.size + sumCover rest) := rfl
    have hab : contig a b := (List.chain'_cons.mp hch).1
    have htail : (b :: rest).Chain' contig := (List.chain'_cons.mp hch).2
    obtain ⟨hbh, hrest⟩ := List.chain'_cons'.mp htail
    simp only [coalesce]
    split
    · have h1 : wadd HEADER_SIZE b.size = HEADER_SIZE + b.size :=
        wadd_exact _ _ (by omega)
      have h2 : wadd a.size (HEADER_SIZE + b.size) = a.size + (HEADER_SIZE + b.size) :=
        wadd_exact _ _ (by omega)
      have hsum : sumCover ({ a with size := wadd a.size (wadd HEADER_SIZE b.size) } :: rest)
          = sumCover (a :: b :: rest) := by
        simp only [sumCover_cons, h1, h2]
        omega
      refine coalesce_chain _ ?_ (by rw [hsum]; exact h)
      refine List.chain'_cons'.mpr ⟨?_, hrest⟩
      intro y hy
      have hyb := hbh y hy
      unfold contig at hab hyb ⊢
      simp only [h1, h2]
      omega
    · show (a :: coalesce (b :: rest)).Chain' contig
      have hb : sumCover (b :: rest) = HEADER_SIZE + b.size + sumCover rest := rfl
      have ht : sumCover (b :: rest) ≤ HEAP_SIZE := by omega
      refine List.chain'_cons'.mpr ⟨?_, coalesce_chain _ htail ht⟩
      intro y hy
      obtain ⟨b', t', heq, haddr, _⟩ := coalesce_cons_head b rest
      rw [heq] at hy
      simp only [List.head?_cons, Option.mem_def, Option.some.injEq] at hy
      subst hy
      unfold contig at hab ⊢
      rw [haddr, hab]
termination_by l => l.length

/-- The `block->free = 1` store changes no size. -/
theorem markFree_sumCover (l : List block_header) (a : Nat) :
    sumCover (markFree l a) = sumCover l := by
  induction l with
  | nil => rfl
  | cons c t ih =>
    simp only [markFree, List.map_cons] at ih ⊢
    rw [sumCover_cons, sumCover_cons]
    split <;> simp [ih]

/-- The `block->free = 1` store preserves physical contiguity. -/
theorem markFree_chain (l : List block_header) (a : Nat)
    (h : l.Chain' contig) : (markFree l a).Chain' contig := by
  unfold markFree
  refine List.chain'_map_of_chain' _ ?_ h
  intro x y hxy
  unfold contig at hxy ⊢
  split <;> split <;> simpa using hxy

/-- Master invariant: every state reachable from `init_heap` by `malloc` and
`free` calls conserves the arena (`Σ (HEADER_SIZE + size) = HEAP_SIZE`) and
keeps the chain physically contiguous in address order. -/
theorem reachable_inv {s : List block_header} (h : Reachable s) :
    sumCover s = HEAP_SIZE ∧ s.Chain' contig := by
  induction h with
  | init => exact ⟨by decide, List.chain'_singleton _⟩
  | alloc s n hr ih =>
    refine ⟨?_, ?_⟩
    · show sumCover (mallocGo (align8 n) s).1 = HEAP_SIZE
      rw [mallocGo_sumCover _ _ (le_of_eq ih.1)]
      exact ih.1
    · exact mallocGo_chain _ _ ih.2 (le_of_eq ih.1)
  | release s p hr ih =>
    unfold free
    split
    · exact ih
    · refine ⟨?_, ?_⟩
      · rw [coalesce_sumCover _ (by rw [markFree_sumCover]; exact le_of_eq ih.1),
          markFree_sumCover]
        exact ih.1
      · exact coalesce_chain _ (markFree_chain _ _ ih.2)
          (by rw [markFree_sumCover]; exact le_of_eq ih.1)

/-! ### Termination of the two loops within chain-length many iterations -/

/-- The `malloc` loop finishes within `l.length` iterations (the traversal
strictly advances along the chain) and computes exactly the functional
model. -/
theorem mallocFuel_eq (m : Nat) : ∀ l : List block_header,
    mallocFuel m l.length l = some (mallocGo m l)
  | [] => rfl
  | c :: t => by
    show mallocFuel m (t.length + 1) (c :: t) = _
    simp only [mallocFuel, mallocGo]
    by_cases h : c.free = true ∧ m ≤ c.size
    · rw [if_pos h, if_pos h]
      split <;> rfl
    · rw [if_neg h, if_neg h]
      rcases h2 : mallocGo m t with ⟨l2, r2⟩
      rw [mallocFuel_eq m t, h2]

/-- The coalescing loop finishes within `l.length` iterations: each
iteration either merges (removing a node, `current` stays) or advances, so
the suffix starting at `current` shrinks every time; it computes exactly
the functional model. -/
theorem coalesceFuel_eq : ∀ l : List block_header,
    coalesceFuel l.length l = some (coalesce l)
  | [] => by simp [coalesceFuel, coalesce]
  | [a] => by simp [coalesceFuel, coalesce]
  | a :: b :: rest => by
    show coalesceFuel (rest.length + 1 + 1) (a :: b :: rest) = _
    simp only [coalesceFuel, coalesce]
    by_cases h : a.free = true ∧ b.free = true
    · rw [if_pos h, if_pos h]
      exact coalesceFuel_eq ({ a with size := wadd a.size (wadd HEADER_SIZE b.size) } :: rest)
    · rw [if_neg h, if_neg h]
      have hre := coalesceFuel_eq (b :: rest)
      rw [List.length_cons] at hre
      rw [hre]
termination_by l => l.length

/-- When the traversal succeeds, the returned pointer is the payload pointer
of a block of the resulting chain that is marked allocated and whose recorded
size is at least the aligned request. -/
theorem mallocGo_success (m : Nat) (l : List block_header) (p : Nat)
    (hp : (mallocGo m l).2 = some p) :
    ∃ b ∈ (mallocGo m l).1,
      b.addr + HEADER_SIZE = p ∧ b.free = false ∧ m ≤ b.size := by
  induction l with
  | nil => exact absurd hp (by simp [mallocGo])
  | cons c t ih =>
    simp only [mallocGo] at hp ⊢
    by_cases hfit : c.free = true ∧ m ≤ c.size
    · rw [if_pos hfit] at hp ⊢
      by_cases hguard : (m + HEADER_SIZE + 8) % WORD ≤ c.size
      · rw [if_pos hguard] at hp ⊢
        exact ⟨{ c with size := m, free := false }, List.mem_cons_self _ _,
          by simpa using hp, rfl, le_refl m⟩
      · rw [if_neg hguard] at hp ⊢
        exact ⟨{ c with free := false }, List.mem_cons_self _ _,
          by simpa using hp, rfl, hfit.2⟩
    · rw [if_neg hfit] at hp ⊢
      obtain ⟨b, hb1, hb2, hb3, hb4⟩ := ih (by simpa using hp)
      exact ⟨b, List.mem_cons_of_mem _ hb1, hb2, hb3, hb4⟩

/-! ### Claim theorems -/

/-- C1: `allocate(requestedSize)` selects, among all chain nodes, the first
one in chain order satisfying `free == true && size >= roundedSize` (where
`roundedSize` is `requestedSize` rounded up to a multiple of 8), and returns
that block's payload pointer (header address + header size); no later or
smaller-fitting candidate is ever chosen. -/
theorem C1_first_fit (l : List block_header) (n : Nat) :
    (malloc l n).2 =
      (l.find? fun b => b.free && decide (align8 n ≤ b.size)).map
        fun b => b.addr + HEADER_SIZE :=
  mallocGo_find (align8 n) l

/-- C2: after `init_heap`, and after every `malloc` and `free` call, the sum
over all chain nodes of (header size + node size) equals the usable arena
capacity `HEAP_SIZE`; splits and merges preserve this sum exactly. -/
theorem C2_conservation {s : List block_header} (h : Reachable s) :
    sumCover s = HEAP_SIZE :=
  (reachable_inv h).1

theorem C2_witness :
    Reachable (malloc init_heap 100).1 ∧ sumCover (malloc init_heap 100).1 = HEAP_SIZE :=
  ⟨Reachable.alloc init_heap 100 Reachable.init,
   C2_conservation (Reachable.alloc init_heap 100 Reachable.init)⟩

/-- C3: after `free(ptr)` returns for a non-null pointer, no two adjacent
chain entries are both free — the single forward pass re-checks the same
node after each merge, so it absorbs whole runs of free blocks.  (This holds
for every chain state, in particular for those satisfying the spec
invariants, and for every non-null pointer.) -/
theorem C3_maximal_coalescing (l : List block_header) (p : Nat) (hp : p ≠ 0) :
    noAdjFree (free l p) := by
  unfold free
  rw [if_neg hp]
  exact noAdjFree_coalesce _

theorem C3_witness :
    (12 : Nat) ≠ 0 ∧ noAdjFree (free [⟨0, 65524, false⟩] 12) :=
  ⟨by decide, C3_maximal_coalescing [⟨0, 65524, false⟩] 12 (by decide)⟩

/-- C6: in every state reachable from `init_heap` by `malloc` and `free`
calls, chain entries appear in strictly increasing address order equal to
their physical order in the arena (each successor starts exactly at its
predecessor's end); splitting inserts the new block between the chosen block
and its old successor at a higher address and merging only removes a node,
so both preserve the order. -/
theorem C6_address_order {s : List block_header} (h : Reachable s) :
    s.Pairwise (fun a b => a.addr < b.addr) ∧ s.Chain' contig := by
  have hch := (reachable_inv h).2
  refine ⟨?_, hch⟩
  haveI : IsTrans block_header (fun a b => a.addr < b.addr) :=
    ⟨fun x y z h1 h2 => Nat.lt_trans h1 h2⟩
  refine List.chain'_iff_pairwise.mp (hch.imp ?_)
  intro a b hab
  unfold contig at hab
  have hH : HEADER_SIZE = 12 := rfl
  omega

theorem C6_witness :
    Reachable (malloc init_heap 8).1 ∧
      ((malloc init_heap 8).1.Pairwise (fun a b => a.addr < b.addr) ∧
        (malloc init_heap 8).1.Chain' contig) :=
  ⟨Reachable.alloc init_heap 8 Reachable.init,
   C6_address_order (Reachable.alloc init_heap 8 Reachable.init)⟩

/-- C7: if no chain node satisfies `free && size >= roundedSize`, `malloc`
returns the allocation-failure signal (`NULL`) and the chain — every node's
size, link structure and free flag — is exactly as before the call. -/
theorem C7_failure_unchanged (l : List block_header) (n : Nat)
    (h : ∀ b ∈ l, ¬(b.free = true ∧ align8 n ≤ b.size)) :
    malloc l n = (l, none) :=
  mallocGo_nofit (align8 n) l h

theorem C7_witness :
    (∀ b ∈ [(⟨0, 65524, false⟩ : block_header)],
      ¬(b.free = true ∧ align8 100 ≤ b.size)) ∧
    malloc [⟨0, 65524, false⟩] 100 = ([⟨0, 65524, false⟩], none) :=
  ⟨by decide, C7_failure_unchanged [⟨0, 65524, false⟩] 100 (by decide)⟩

/-- C9: on every finite acyclic chain (which a `List` is by construction)
both loops terminate: the `malloc` traversal strictly advances, and the
coalescing loop either removes a node or advances, so each completes within
chain-length many iterations, computing the functional model. -/
theorem C9_termination (l : List block_header) (n : Nat) :
    mallocFuel (align8 n) l.length l = some (mallocGo (align8 n) l) ∧
    coalesceFuel l.length l = some (coalesce l) :=
  ⟨mallocFuel_eq (align8 n) l, coalesceFuel_eq l⟩

/-- C10: a live (allocated) block is untouched by any `malloc` call (the
chosen block is always free, hence a different block) and by any `free` call
whose pointer recovers a different header address: the block stays in the
chain with identical address, size and flag.  `malloc` writes only the
chosen block's header and, on a split, one new header carved from the chosen
block's own extent; `free` writes only the freed block's flag and headers of
merged free nodes, and merges involve only free blocks. -/
theorem C10_frame (l : List block_header) (n p : Nat) (b : block_header)
    (hb : b ∈ l) (hfree : b.free = false) (hne : b.addr ≠ p - HEADER_SIZE) :
    b ∈ (malloc l n).1 ∧ b ∈ free l p := by
  refine ⟨mallocGo_preserves_allocated (align8 n) l b hb hfree, ?_⟩
  unfold free
  split
  · exact hb
  · exact coalesce_preserves_allocated _ b
      (markFree_preserves l _ b hb hne) hfree

theorem C10_witness :
    ((⟨0, 8, false⟩ : block_header) ∈
        [(⟨0, 8, false⟩ : block_header), ⟨20, 65504, true⟩]) ∧
    (⟨0, 8, false⟩ : block_header).free = false ∧
    (⟨0, 8, false⟩ : block_header).addr ≠ 33 - HEADER_SIZE ∧
    ((⟨0, 8, false⟩ : block_header) ∈
        (malloc [⟨0, 8, false⟩, ⟨20, 65504, true⟩] 8).1 ∧
      (⟨0, 8, false⟩ : block_header) ∈ free [⟨0, 8, false⟩, ⟨20, 65504, true⟩] 33) :=
  ⟨by decide, by decide, by decide,
   C10_frame [⟨0, 8, false⟩, ⟨20, 65504, true⟩] 8 33 ⟨0, 8, false⟩
     (by decide) (by decide) (by decide)⟩

/-- C4 counterexample: at the boundary case `size = roundedSize +
HEADER_SIZE + 8` (request 8, free block of size 28 = 8 + 12 + 8) the source
splits — the guard is `>=`, so the resulting chain has two nodes — although
the block's size does not strictly exceed `roundedSize + HEADER_SIZE + 8` as
the claim requires for a split. -/
theorem C4_counterexample :
    (malloc [⟨0, 28, true⟩] 8).1.length = 2 ∧
    ¬(28 > align8 8 + HEADER_SIZE + 8) := by decide

/-- C4 (amended): `allocate` splits the chosen free block if and only if its
size is at least `roundedSize + HEADER_SIZE + 8` (greater-or-equal, not
strictly greater); when it splits, the new header is placed at the chosen
header's end + `roundedSize`, with size `chosen.size − roundedSize −
HEADER_SIZE`, `free = true`, `next = chosen.next`, and the chosen block's
size becomes exactly `roundedSize`; otherwise no split occurs, so an
exact-fit request allocates the block without creating a new header.
Stated for 32-bit block sizes and for rounded sizes whose split guard does
not wrap (every request below `2^32 − 27`). -/
theorem C4_split_iff (l pre post : List block_header) (b : block_header)
    (n : Nat) (hl : l = pre ++ b :: post)
    (hpre : ∀ c ∈ pre, ¬(c.free = true ∧ align8 n ≤ c.size))
    (hb : b.free = true) (hfit : align8 n ≤ b.size)
    (hbw : b.size < WORD) (hw : align8 n + HEADER_SIZE + 8 < WORD) :
    (malloc l n).1 =
      (if align8 n + HEADER_SIZE + 8 ≤ b.size then
        pre ++ { addr := b.addr, size := align8 n, free := false } ::
          { addr := b.addr + HEADER_SIZE + align8 n
            size := b.size - align8 n - HEADER_SIZE
            free := true } :: post
      else
        pre ++ { addr := b.addr, size := b.size, free := false } :: post) ∧
    (malloc l n).2 = some (b.addr + HEADER_SIZE) := by
  subst hl
  unfold malloc
  have hH : HEADER_SIZE = 12 := rfl
  induction pre with
  | nil =>
    simp only [List.nil_append, mallocGo]
    rw [if_pos ⟨hb, hfit⟩]
    rw [Nat.mod_eq_of_lt hw]
    by_cases hguard : align8 n + HEADER_SIZE + 8 ≤ b.size
    · rw [if_pos hguard, if_pos hguard]
      have h1 : wsub b.size (align8 n) = b.size - align8 n :=
        wsub_exact _ _ hfit hbw
      have h2 : wsub (b.size - align8 n) HEADER_SIZE
          = b.size - align8 n - HEADER_SIZE :=
        wsub_exact _ _ (by omega) (by unfold WORD at *; omega)
      rw [h1, h2]
      exact ⟨rfl, rfl⟩
    · rw [if_neg hguard, if_neg hguard]
      exact ⟨rfl, rfl⟩
  | cons c pre ih =>
    simp only [List.cons_append, mallocGo]
    rw [if_neg (hpre c (List.mem_cons_self c pre))]
    have ih2 := ih fun d hd => hpre d (List.mem_cons_of_mem c hd)
    refine ⟨?_, ih2.2⟩
    show (mallocGo (align8 n) (pre ++ b :: post)).1.cons c = _
    rw [ih2.1]
    by_cases hguard : align8 n + HEADER_SIZE + 8 ≤ b.size
    · rw [if_pos hguard, if_pos hguard]
    · rw [if_neg hguard, if_neg hguard]

theorem C4_witness :
    ([(⟨0, 100, true⟩ : block_header)] =
        [] ++ (⟨0, 100, true⟩ : block_header) :: []) ∧
    (∀ c ∈ ([] : List block_header), ¬(c.free = true ∧ align8 8 ≤ c.size)) ∧
    (⟨0, 100, true⟩ : block_header).free = true ∧
    align8 8 ≤ (⟨0, 100, true⟩ : block_header).size ∧
    (⟨0, 100, true⟩ : block_header).size < WORD ∧
    align8 8 + HEADER_SIZE + 8 < WORD ∧
    ((malloc [⟨0, 100, true⟩] 8).1 =
      (if align8 8 + HEADER_SIZE + 8 ≤ (⟨0, 100, true⟩ : block_header).size then
        [] ++ { addr := (⟨0, 100, true⟩ : block_header).addr, size := align8 8, free := false } ::
          { addr := (⟨0, 100, true⟩ : block_header).addr + HEADER_SIZE + align8 8
            size := (⟨0, 100, true⟩ : block_header).size - align8 8 - HEADER_SIZE
            free := true } :: []
      else
        [] ++ { addr := (⟨0, 100, true⟩ : block_header).addr,
                size := (⟨0, 100, true⟩ : block_header).size, free := false } :: []) ∧
      (malloc [⟨0, 100, true⟩] 8).2 =
        some ((⟨0, 100, true⟩ : block_header).addr + HEADER_SIZE)) :=
  ⟨rfl, by decide, rfl, by decide, by decide, by decide,
   C4_split_iff [⟨0, 100, true⟩] [] [] ⟨0, 100, true⟩ 8 rfl (by decide) rfl
     (by decide) (by decide) (by decide)⟩

/-- C5 counterexample: with the 32-bit rounding `(requestedSize + 7) & ~7`,
a request of `2^32 − 1` rounds to 0, so on a heap with one free block the
allocation succeeds (pointer 12), the chosen block's recorded size is
shrunk to 0, and 0 is smaller than the requested size — the claimed
guarantee fails for wrapping requests. -/
theorem C5_counterexample :
    malloc [⟨0, 65524, true⟩] 4294967295 =
      ([⟨0, 0, false⟩, ⟨12, 65512, true⟩], some 12) ∧
    ¬(4294967295 ≤ (0 : Nat)) := by decide

/-- C5 (amended): for every `requestedSize ≤ 2^32 − 8` (so the alignment
rounding does not wrap) and every chain state, if `malloc` succeeds then the
returned pointer is the payload pointer of a block marked allocated whose
recorded size is at least `requestedSize` usable bytes. -/
theorem C5_size_guarantee (l : List block_header) (n p : Nat)
    (hn : n + 8 ≤ WORD) (hp : (malloc l n).2 = some p) :
    ∃ b ∈ (malloc l n).1,
      b.addr + HEADER_SIZE = p ∧ b.free = false ∧ n ≤ b.size := by
  obtain ⟨b, h1, h2, h3, h4⟩ := mallocGo_success (align8 n) l p hp
  exact ⟨b, h1, h2, h3, le_trans (align8_ge n hn) h4⟩

theorem C5_witness :
    100 + 8 ≤ WORD ∧
    (malloc [⟨0, 65524, true⟩] 100).2 = some 12 ∧
    ∃ b ∈ (malloc [⟨0, 65524, true⟩] 100).1,
      b.addr + HEADER_SIZE = 12 ∧ b.free = false ∧ 100 ≤ b.size :=
  ⟨by decide, by decide,
   C5_size_guarantee [⟨0, 65524, true⟩] 100 12 (by decide) (by decide)⟩

/-- C8 counterexample: invoked before `init_heap` (chain head `NULL`, the
empty chain), `malloc` does not fault: the `while (current)` guard rejects
the null head at once and `malloc` returns the allocation-failure signal
with the state unchanged; likewise `free`'s coalescing loop over the null
head terminates immediately. -/
theorem C8_counterexample :
    malloc [] 10 = ([], none) ∧ free [] 40 = [] := by
  refine ⟨rfl, ?_⟩
  simp [free, markFree, coalesce]

/-- C8 (amended): if `malloc` or `free` is invoked before `init_heap` (the
chain head is absent), no dereference of the chain head occurs: the loop
guards reject the null head, `malloc` detects the condition and returns the
allocation-failure signal with no state change, and `free` leaves the
(empty) chain unchanged. -/
theorem C8_before_init (n p : Nat) :
    malloc [] n = ([], none) ∧ free [] p = [] := by
  refine ⟨rfl, ?_⟩
  unfold free
  split
  · rfl
  · simp [markFree, coalesce]

end MicroLuna
